import Mathlib

/-!
Verification development for the BookScraper repository.

The Python sources are shallowly embedded:
* HTML documents are modelled at the "soup" level: each CSS-selector access
  performed by the code corresponds to a field of a structure holding the
  selector's result (`none` when the selector matches nothing).
* Python strings are Lean `String`s; `str.strip` / `str.lstrip` are modelled
  by executable functions below.
* Python floats produced by `_extract_price` are modelled as `ℚ` (the code
  only ever converts decimal literals of the form `d+.d+`).
* The stateful pieces (the rate limiter in `collector.py`, the pagination
  loop in `main.py`) are modelled by explicit state passing; network results
  are supplied by oracles (explicit arguments).
-/

namespace BookScraper

/-! ### Generic list helpers -/

/-- Splitting lemma for `takeWhile`: a block where `p` holds followed by a
tail whose head (if any) falsifies `p` is split exactly at the boundary. -/
theorem takeWhile_append_block {α : Type} (p : α → Bool) (l r : List α)
    (hl : ∀ c ∈ l, p c = true) (hr : ∀ c, r.head? = some c → p c = false) :
    (l ++ r).takeWhile p = l ∧ (l ++ r).dropWhile p = r := by
  induction l with
  | nil =>
    simp only [List.nil_append]
    cases r with
    | nil => simp [List.takeWhile, List.dropWhile]
    | cons c r' =>
      have hc : p c = false := hr c rfl
      simp [List.takeWhile, List.dropWhile, hc]
  | cons a l' ih =>
    have ha : p a = true := hl a (by simp)
    have ih' := ih (fun c hc => hl c (by simp [hc]))
    simp [List.takeWhile, List.dropWhile, ha, ih'.1, ih'.2]

/-- An element of `l.takeWhile p` satisfies `p`. -/
theorem mem_takeWhile_sat {α : Type} (p : α → Bool) (l : List α) :
    ∀ c ∈ l.takeWhile p, p c = true := by
  induction l with
  | nil => intro c hc; simp [List.takeWhile] at hc
  | cons a l' ih =>
    intro c hc
    by_cases ha : p a = true
    · simp [List.takeWhile, ha] at hc
      rcases hc with h | h
      · exact h ▸ ha
      · exact ih c h
    · simp [List.takeWhile, Bool.eq_false_iff.mpr ha] at hc

/-- The head of `l.dropWhile p` (if any) falsifies `p`. -/
theorem head_dropWhile_not {α : Type} (p : α → Bool) (l : List α) :
    ∀ c, (l.dropWhile p).head? = some c → p c = false := by
  induction l with
  | nil => intro c hc; simp [List.dropWhile] at hc
  | cons a l' ih =>
    intro c hc
    by_cases ha : p a = true
    · simp [List.dropWhile, ha] at hc
      exact ih c hc
    · have ha' : p a = false := Bool.eq_false_iff.mpr ha
      simp [List.dropWhile, ha'] at hc
      exact hc ▸ ha'

/-- Membership in `l.take 1` is exactly being the head. -/
theorem mem_take_one {α : Type} (l : List α) (c : α) :
    c ∈ l.take 1 ↔ l.head? = some c := by
  cases l <;> simp [eq_comm]

/-- `take` across an append, offset by the left block's length. -/
theorem take_append_len {α : Type} (l r : List α) (k : Nat) :
    (l ++ r).take (l.length + k) = l ++ r.take k := by
  induction l with
  | nil => simp
  | cons a l' ih => simp [List.take, Nat.succ_add, ih]

/-- `drop` across an append, offset by the left block's length. -/
theorem drop_append_len {α : Type} (l r : List α) (k : Nat) :
    (l ++ r).drop (l.length + k) = r.drop k := by
  induction l with
  | nil => simp
  | cons a l' ih => simp [List.drop, Nat.succ_add, ih]

/-! ### Python string primitives -/

/-- Model of Python `str.strip()`: remove leading and trailing whitespace. -/
def pyStrip (s : String) : String :=
  ⟨((s.data.dropWhile Char.isWhitespace).reverse.dropWhile Char.isWhitespace).reverse⟩

/-- Model of Python `str.lstrip(chars)`: remove every leading character that
belongs to the character set `set` (Python treats the argument as a set of
characters, not as a literal prefix). -/
def pyLstrip (s : String) (set : List Char) : String :=
  ⟨s.data.dropWhile (fun c => set.contains c)⟩

/-- Model of Python `str.startswith(pre)`. -/
def pyStartsWith (s pre : String) : Bool :=
  decide (s.data.take pre.data.length = pre.data)

/-! ### Data model (`models/data_models.py`) -/

/-- Embedding of `Book` from `models/data_models.py`.  `price` is `ℚ`
(the Python float is only ever built from a short decimal literal), and the
optional fields default to `none` exactly as the Python defaults are `None`. -/
structure Book where
  title : String
  price : ℚ
  rating : Nat
  availability : String
  category : String
  url : String
  upc : Option String := none
  description : Option String := none
  image_url : Option String := none
deriving DecidableEq

/-! ### Rating extraction (`parser.py`, `BookParser._extract_rating`) -/

/-- The `rating_map` dictionary of `_extract_rating`, as a partial map. -/
def ratingMap (s : String) : Option Nat :=
  if s = "One" then some 1
  else if s = "Two" then some 2
  else if s = "Three" then some 3
  else if s = "Four" then some 4
  else if s = "Five" then some 5
  else none

/-- The `for class_name in rating_class['class']` loop of `_extract_rating`:
return the value of the first recognized class name, else 0. -/
def firstRating : List String → Nat
  | [] => 0
  | c :: cs =>
    match ratingMap c with
    | some v => v
    | none => firstRating cs

/-- Embedding of `BookParser._extract_rating`.  The argument is the result of
`element.select_one('p.star-rating')`, modelled as the class list of that
element when present (an element selected by class always has a class list). -/
def extract_rating (star : Option (List String)) : Nat :=
  match star with
  | none => 0
  | some cls => firstRating cls

/-! ### Price extraction (`parser.py`, `BookParser._extract_price`) -/

/-- Numeric value of a digit string (most significant first). -/
def digitsToNat (l : List Char) : Nat :=
  l.foldl (fun a c => 10 * a + (c.toNat - 48)) 0

/-- Attempt to match the regex `£(\d+\.\d+)` anchored at the start of the
character list, returning the integer and fraction digit groups.  The digit
runs are maximal, as with greedy `\d+`: after `£` comes a maximal nonempty
digit run, then `.`, then a maximal nonempty digit run. -/
def matchPriceAt : List Char → Option (List Char × List Char)
  | [] => none
  | c :: rest =>
    if c = '£' then
      if (rest.takeWhile Char.isDigit).isEmpty then none
      else if (rest.dropWhile Char.isDigit).head? = some '.' then
        if (((rest.dropWhile Char.isDigit).tail).takeWhile Char.isDigit).isEmpty then none
        else some (rest.takeWhile Char.isDigit,
                   ((rest.dropWhile Char.isDigit).tail).takeWhile Char.isDigit)
      else none
    else none

/-- `re.search` semantics for the pattern `£(\d+\.\d+)`: try each start
position from the left and return the first (leftmost) match. -/
def searchPrice : List Char → Option (List Char × List Char)
  | [] => none
  | c :: cs =>
    match matchPriceAt (c :: cs) with
    | some r => some r
    | none => searchPrice cs

/-- The value `float(match.group(1))` of a match with integer digits `ds` and
fractional digits `fs`. -/
def priceOfMatch (ds fs : List Char) : ℚ :=
  (digitsToNat ds : ℚ) + (digitsToNat fs : ℚ) / (10 : ℚ) ^ fs.length

/-- Embedding of `BookParser._extract_price`.  The argument is the result of
`element.select_one('p.price_color')`, modelled as that element's text. -/
def extract_price (priceText : Option String) : ℚ :=
  match priceText with
  | none => 0
  | some t =>
    match searchPrice (pyStrip t).data with
    | none => 0
    | some (ds, fs) => priceOfMatch ds fs

/-- Declarative description of a match of `£(\d+\.\d+)` anchored at the head
of `cs`, with greedy (maximal) fraction digits: the text starts with `£`,
then the nonempty digit groups and the dot, and the first character after the
match (if any) is not a digit. -/
def MatchFrom (cs ds fs : List Char) : Prop :=
  ds ≠ [] ∧ fs ≠ [] ∧ (∀ c ∈ ds, c.isDigit = true) ∧ (∀ c ∈ fs, c.isDigit = true) ∧
  cs.take (ds.length + fs.length + 2) = '£' :: (ds ++ '.' :: fs) ∧
  (∀ c ∈ (cs.drop (ds.length + fs.length + 2)).take 1, c.isDigit = false)

instance (cs ds fs : List Char) : Decidable (MatchFrom cs ds fs) := by
  unfold MatchFrom; infer_instance

/-- A match at position `i` that no earlier position admits: the regex
`search` result. -/
def FirstMatch (cs : List Char) (i : Nat) (ds fs : List Char) : Prop :=
  MatchFrom (cs.drop i) ds fs ∧
  ∀ j, j < i → ∀ ds' fs', ¬ MatchFrom (cs.drop j) ds' fs'

/-! ### Availability extraction (`parser.py`, `BookParser._extract_availability`) -/

/-- Embedding of `BookParser._extract_availability`. -/
def extract_availability (availabilityText : Option String) : String :=
  match availabilityText with
  | some t => pyStrip t
  | none => "Unknown"

/-! ### Listing-page parsing (`parser.py`, `BookParser.parse_books_list`) -/

/-- Model of the `h3 > a` anchor inside one `article.product_pod` element:
its `title` and `href` attributes, each possibly absent. -/
structure AnchorEl where
  titleAttr : Option String
  hrefAttr : Option String
deriving DecidableEq

/-- Soup-level model of one `article.product_pod` listing element: the
results of the selector accesses `parse_books_list` and the three private
extractors perform on it. -/
structure PodElement where
  anchor : Option AnchorEl
  img : Option (Option String)
  starClasses : Option (List String)
  priceText : Option String
  availabilityText : Option String
deriving DecidableEq

/-- `title_element.get('title', 'Unknown') if title_element else 'Unknown'`. -/
def podTitle (e : PodElement) : String :=
  match e.anchor with
  | some a => a.titleAttr.getD "Unknown"
  | none => "Unknown"

/-- `title_element.get('href', '') if title_element else ''`. -/
def podHref (e : PodElement) : String :=
  match e.anchor with
  | some a => a.hrefAttr.getD ""
  | none => ""

/-- `image_element.get('src', '') if image_element else ''`. -/
def podImgSrc (e : PodElement) : String :=
  match e.img with
  | some s => s.getD ""
  | none => ""

/-- The detail-URL construction of `parse_books_list` (parser.py line 150):
`f"{base}/catalogue/{url_path.lstrip('../../..')}" if url_path else ''`.
Note that Python `lstrip` strips a *character set*, here `{'.', '/'}`. -/
def resolve_book_url (base urlPath : String) : String :=
  if urlPath = "" then "" else base ++ "/catalogue/" ++ pyLstrip urlPath ['.', '/']

/-- The image-URL construction of `parse_books_list` (lines 155-156):
prefix the base URL unless the source is empty or already starts with
`http`. -/
def resolve_image_url (base src : String) : String :=
  if src ≠ "" ∧ pyStartsWith src "http" = false then base ++ "/" ++ pyLstrip src ['/']
  else src

/-- The per-element body of the `for element in book_elements` loop of
`parse_books_list`: build a `Book` with summary-level fields. -/
def parse_book_element (base cat : String) (e : PodElement) : Book :=
  { title := podTitle e
    price := extract_price e.priceText
    rating := extract_rating e.starClasses
    availability := extract_availability e.availabilityText
    category := cat
    url := resolve_book_url base (podHref e)
    upc := none
    description := none
    image_url := some (resolve_image_url base (podImgSrc e)) }

/-- Embedding of `BookParser.parse_books_list`: the soup's
`article.product_pod` elements, in document order, each mapped to a summary
`Book`. -/
def parse_books_list (base : String) (elems : List PodElement) (cat : String) : List Book :=
  elems.map (parse_book_element base cat)

/-- Modelled from the spec (§4.2 / claim C2), for refinement comparison only:
the resolution rule the spec describes for detail hrefs, which strips the
fixed-depth upward path prefix `"../../../"` (three levels, the convention of
the source site's listing pages) when the href starts with it, and then
prefixes the catalogue path segment.  This follows the spec's words; the
code's rule is `resolve_book_url`. -/
def specResolveDetailUrl (base urlPath : String) : String :=
  if urlPath = "" then ""
  else if urlPath.data.take ("../../../".data.length) = "../../../".data then
    base ++ "/catalogue/" ++ ⟨urlPath.data.drop ("../../../".data.length)⟩
  else base ++ "/catalogue/" ++ urlPath

/-! ### Detail-page parsing (`parser.py`, `BookParser.parse_book_details`) -/

/-- One `tr` row of the `table.table-striped` specification table: the text
of its `th` and `td` cells, each possibly absent. -/
structure Row where
  header : Option String
  data : Option String
deriving DecidableEq

/-- Soup-level model of a book detail page: the text of the element matched
by `#product_description + p` (if any) and the rows of the
`table.table-striped` element (if any). -/
structure DetailDoc where
  descriptionText : Option String
  infoTable : Option (List Row)
deriving DecidableEq

/-- The code's row test `header and data and header.text.strip() == 'UPC'`. -/
def rowIsUpc (r : Row) : Bool :=
  match r.header, r.data with
  | some h, some _ => decide (pyStrip h = "UPC")
  | _, _ => false

/-- The `for row in rows` loop of `parse_book_details`: assign
`book.upc = data.text.strip()` on every matching row, without stopping. -/
def applyRows (b : Book) : List Row → Book
  | [] => b
  | r :: rs =>
    applyRows
      (match r.header, r.data with
       | some h, some d => if pyStrip h = "UPC" then { b with upc := some (pyStrip d) } else b
       | _, _ => b) rs

/-- Embedding of `BookParser.parse_book_details`: set the description when
the description element is present, then run the specification-table row
loop when the table is present. -/
def parse_book_details (doc : DetailDoc) (b : Book) : Book :=
  let b1 :=
    match doc.descriptionText with
    | some t => { b with description := some (pyStrip t) }
    | none => b
  match doc.infoTable with
  | some rows => applyRows b1 rows
  | none => b1

/-- Specification-style description of the row loop's net effect on `upc`:
the stripped value cell of the *last* row whose header cell strips to
`"UPC"` (and whose cells are both present), if any. -/
def lastUpcVal : List Row → Option String
  | [] => none
  | r :: rs =>
    match lastUpcVal rs with
    | some v => some v
    | none =>
      match r.header, r.data with
      | some h, some d => if pyStrip h = "UPC" then some (pyStrip d) else none
      | _, _ => none

/-! ### Collector (`collector.py`, `WebCollector`) -/

/-- URL resolution in `WebCollector.get` (line 58):
`url if url.startswith('http') else f"{base}/{url.lstrip('/')}"`. -/
def resolveFullUrl (base url : String) : String :=
  if pyStartsWith url "http" then url else base ++ "/" ++ pyLstrip url ['/']

/-- Outcome of one `session.get` call, supplied as an oracle: either a
response with a status code and a body, or a raised `RequestException`
(covering connection errors and timeouts) with its message. -/
inductive HttpResp where
  | resp (status : Nat) (body : String)
  | exc (msg : String)
deriving DecidableEq

/-- Model of the message of the `HTTPError` that
`response.raise_for_status()` raises for a 4xx/5xx status. -/
def statusErrorMsg (status : Nat) (full : String) : String :=
  toString status ++ " Error for url: " ++ full

/-- Embedding of `WebCollector.get` (minus the throttle, modelled
separately): resolve the URL, dispatch, and on a `RequestException` - which
`raise_for_status` raises exactly when the status is in 400..599 - print an
error line carrying the full URL and the cause and return `None`.  The
result is the returned value together with the printed log lines. -/
def collectorGet (base url : String) (r : HttpResp) : Option String × List String :=
  let full := resolveFullUrl base url
  match r with
  | .exc m => (none, ["Error fetching " ++ full ++ ": " ++ m])
  | .resp s b =>
    if 400 ≤ s ∧ s < 600 then
      (none, ["Error fetching " ++ full ++ ": " ++ statusErrorMsg s full])
    else (some b, [])

/-! ### Rate limiter (`collector.py`, `WebCollector._respect_rate_limit`)

Modelled with an explicit clock (`ℚ`, seconds).  `_respect_rate_limit` reads
the clock, sleeps while fewer than `rate_limit` seconds have passed since
`last_request_time`, and then stores the *current* time - i.e. the moment
just before the request is dispatched - into `last_request_time`. -/

/-- One call of `_respect_rate_limit`: given the current clock `now` and the
stored `last_request_time` `last`, return the clock value after the optional
sleep (= the dispatch time of the request about to be issued) and the new
`last_request_time`. -/
def respectRateLimit (rl now last : ℚ) : ℚ × ℚ :=
  let tsl := now - last
  if tsl < rl then (now + (rl - tsl), now + (rl - tsl)) else (now, now)

/-- A sequence of back-to-back `get` calls from one thread (as in
`scrape_all_books`): each call runs `_respect_rate_limit`, dispatches, and
returns after its network duration; the next call starts at the previous
call's completion time.  Input: the list of request durations.  Output: the
(dispatch time, completion time) of each request. -/
def runGets (rl : ℚ) : ℚ → ℚ → List ℚ → List (ℚ × ℚ)
  | _, _, [] => []
  | now, last, d :: ds =>
    let r := respectRateLimit rl now last
    let dispatch := r.1
    let completion := dispatch + d
    (dispatch, completion) :: runGets rl completion r.2 ds

/-! ### Orchestrator (`main.py`, `scrape_all_books`) -/

/-- The cap test `max_books_per_category is not None and book_count >= cap`. -/
def capReached : Option Nat → Nat → Bool
  | none, _ => false
  | some n, c => n ≤ c

/-- The detail-enrichment step for one book (main.py lines 72-74): when the
detail fetch yields a page, update the book via `parse_book_details`;
otherwise keep the summary book unchanged. -/
def enrichBook (o : Option DetailDoc) (b : Book) : Book :=
  match o with
  | none => b
  | some doc => parse_book_details doc b

/-- The `for book in books` loop over one listing page (main.py lines
66-78), with the detail-fetch results supplied by the oracle `d`: collect
the (possibly enriched) books appended to the category and the updated
`book_count`.  The loop `break`s as soon as the cap is reached. -/
def pageBooks (d : Book → Option DetailDoc) (cap : Option Nat) (count : Nat) :
    List Book → List Book × Nat
  | [] => ([], count)
  | b :: rest =>
    if capReached cap count then ([], count)
    else
      let res := pageBooks d cap (count + 1) rest
      (enrichBook (d b) b :: res.1, res.2)

/-- The per-category `while` loop of `scrape_all_books` (main.py lines
57-92).  `chain` is the oracle for the successive listing-page fetches along
the next-page links: element `k` is the parsed book list of the `k`-th page
of the category, or `none` when that fetch failed; the chain ends where
`check_next_page` returns no link.  Result: the books appended to the
category, and the number of listing pages fetched. -/
def catLoop (d : Book → Option DetailDoc) (cap : Option Nat) (count : Nat) :
    List (Option (List Book)) → List Book × Nat
  | [] => ([], 0)
  | none :: _ => ([], 1)
  | some books :: rest =>
    if capReached cap count then ([], 1)
    else
      let pr := pageBooks d cap count books
      if rest.isEmpty || capReached cap pr.2 then (pr.1, 1)
      else
        let next := catLoop d cap pr.2 rest
        (pr.1 ++ next.1, next.2 + 1)

/-- Total number of book summaries available on a chain of successfully
fetched listing pages. -/
def chainBooks : List (List Book) → Nat
  | [] => 0
  | page :: tl => page.length + chainBooks tl

/-- The `for category in categories` loop: each category's chain is crawled
independently; every category yields a book list (possibly empty). -/
def runCategories (d : Book → Option DetailDoc) (cap : Option Nat)
    (chains : List (List (Option (List Book)))) : List (List Book) :=
  chains.map (fun ch => (catLoop d cap 0 ch).1)

/-! ### Detail-fetch event trace (`main.py` lines 66-78)

`collector.get(book.url)` is a synchronous call: the request for book `i`
is dispatched and completes before iteration `i+1` begins.  The trace below
records the dispatch and completion events of the per-page detail-fetch
loop in the order they occur. -/

/-- A detail-fetch event: dispatch or completion of the fetch for the book
at the given position in the page's summary list. -/
inductive FetchEv where
  | dispatch (i : Nat)
  | complete (i : Nat)
deriving DecidableEq

/-- The event trace of `k` synchronous fetches starting at index `i`. -/
def seqTrace : Nat → Nat → List FetchEv
  | _, 0 => []
  | i, k + 1 => FetchEv.dispatch i :: FetchEv.complete i :: seqTrace (i + 1) k

/-- The event trace of the sequential per-page detail-fetch loop. -/
def detailFetchTrace (books : List Book) : List FetchEv :=
  seqTrace 0 books.length

/-- Auxiliary scan: current number of in-flight fetches and running
maximum. -/
def inFlightAux : List FetchEv → Nat → Nat → Nat
  | [], _, m => m
  | FetchEv.dispatch _ :: rest, cur, m => inFlightAux rest (cur + 1) (max m (cur + 1))
  | FetchEv.complete _ :: rest, cur, m => inFlightAux rest (cur - 1) m

/-- Maximum number of simultaneously in-flight fetches along a trace. -/
def maxInFlight (t : List FetchEv) : Nat :=
  inFlightAux t 0 0

/-- Position of the first occurrence of an event in a trace (the trace's
length when absent). -/
def evPos : List FetchEv → FetchEv → Nat
  | [], _ => 0
  | x :: rest, e => if x = e then 0 else evPos rest e + 1

/-- A concrete book used by witnesses: a summary-level record as
`parse_books_list` would produce it (no upc, no description). -/
def sampleBook : Book :=
  { title := "A Light in the Attic"
    price := 5177 / 100
    rating := 3
    availability := "In stock"
    category := "Poetry"
    url := "http://books.toscrape.com/catalogue/a-light-in-the-attic_1000/index.html"
    image_url := some "http://books.toscrape.com/media/cache/img.jpg" }

/-! ## Rating extraction: supporting lemmas -/

/-- Every value in the `rating_map` dictionary is between 1 and 5. -/
theorem ratingMap_bounds (s : String) (v : Nat) (h : ratingMap s = some v) :
    1 ≤ v ∧ v ≤ 5 := by
  unfold ratingMap at h
  split_ifs at h <;> simp_all <;> omega

/-- The class-scan loop never returns more than 5. -/
theorem firstRating_le (cls : List String) : firstRating cls ≤ 5 := by
  induction cls with
  | nil => simp [firstRating]
  | cons c cs ih =>
    unfold firstRating
    cases h : ratingMap c with
    | none => exact ih
    | some v => exact (ratingMap_bounds c v h).2

/-- The class-scan loop returns 0 when no class name is recognized. -/
theorem firstRating_none (cls : List String) (h : ∀ c ∈ cls, ratingMap c = none) :
    firstRating cls = 0 := by
  induction cls with
  | nil => rfl
  | cons c cs ih =>
    unfold firstRating
    rw [h c (by simp)]
    exact ih (fun x hx => h x (by simp [hx]))

/-- The class-scan loop returns the value of the first recognized class. -/
theorem firstRating_first (pre post : List String) (w : String) (v : Nat)
    (hpre : ∀ c ∈ pre, ratingMap c = none) (hw : ratingMap w = some v) :
    firstRating (pre ++ w :: post) = v := by
  induction pre with
  | nil => simp [firstRating, hw]
  | cons c cs ih =>
    rw [List.cons_append]
    unfold firstRating
    rw [hpre c (by simp)]
    exact ih (fun x hx => hpre x (by simp [hx]))

/-- C5 (confirmed).  `_extract_rating` maps the five ordinal rating words to
1-5 (the first recognized class name in the element's class list wins),
returns 0 for a missing `p.star-rating` element and for class lists with no
recognized word, is total, and every book produced by `parse_books_list`
has a rating in `{0,1,2,3,4,5}`. -/
theorem extract_rating_spec (star : Option (List String)) (cls pre post : List String)
    (w : String) (v : Nat) (base cat : String) (elems : List PodElement) :
    extract_rating star ≤ 5
    ∧ (star = none → extract_rating star = 0)
    ∧ ((∀ c ∈ cls, ratingMap c = none) → extract_rating (some cls) = 0)
    ∧ ((∀ c ∈ pre, ratingMap c = none) → ratingMap w = some v →
        extract_rating (some (pre ++ w :: post)) = v)
    ∧ (∀ b ∈ parse_books_list base elems cat, b.rating ≤ 5) := by
  refine ⟨?_, ?_, ?_, ?_, ?_⟩
  · cases star with
    | none => simp [extract_rating]
    | some cls' => simpa [extract_rating] using firstRating_le cls'
  · intro h; simp [h, extract_rating]
  · intro h; simpa [extract_rating] using firstRating_none cls h
  · intro hpre hw; simpa [extract_rating] using firstRating_first pre post w v hpre hw
  · intro b hb
    simp only [parse_books_list, List.mem_map] at hb
    obtain ⟨e, _, he⟩ := hb
    have : b.rating = extract_rating e.starClasses := by rw [← he]; rfl
    rw [this]
    cases h : e.starClasses with
    | none => simp [extract_rating]
    | some cls' => simpa [extract_rating] using firstRating_le cls'

/-- Witness for C5 at concrete inputs: the word `Three` among other class
names yields 3, an unrecognized word yields 0, a missing element yields 0. -/
theorem extract_rating_spec_witness :
    extract_rating (some (["star-rating"] ++ "Three" :: [])) = 3
    ∧ extract_rating (some ["star-rating", "Sei"]) = 0
    ∧ extract_rating none = 0 := by
  have h := extract_rating_spec none ["star-rating", "Sei"] ["star-rating"] [] "Three" 3
    "http://books.toscrape.com" "Poetry" []
  exact ⟨h.2.2.2.1 (by decide) (by decide), h.2.2.1 (by decide), h.2.1 rfl⟩

/-! ## Detail-page parsing: supporting lemmas -/

/-- The row loop leaves the book unchanged when no row passes the UPC test. -/
theorem applyRows_no_match (rows : List Row) (b : Book)
    (h : ∀ r ∈ rows, rowIsUpc r = false) : applyRows b rows = b := by
  induction rows generalizing b with
  | nil => rfl
  | cons r rs ih =>
    have hr := h r (by simp)
    unfold applyRows
    have hstep :
        (match r.header, r.data with
         | some h', some d => if pyStrip h' = "UPC" then { b with upc := some (pyStrip d) } else b
         | _, _ => b) = b := by
      cases hh : r.header with
      | none => rfl
      | some h' =>
        cases hd : r.data with
        | none => rfl
        | some d =>
          have : pyStrip h' ≠ "UPC" := by
            simpa [rowIsUpc, hh, hd] using hr
          simp [this]
    rw [hstep]
    exact ih b (fun x hx => h x (by simp [hx]))

/-- The net effect of the row loop on `upc` is the last matching row. -/
theorem applyRows_upc (rows : List Row) (b : Book) :
    (applyRows b rows).upc =
      (match lastUpcVal rows with
       | some v => some v
       | none => b.upc) := by
  induction rows generalizing b with
  | nil => simp [applyRows, lastUpcVal]
  | cons r rs ih =>
    unfold applyRows lastUpcVal
    cases hrs : lastUpcVal rs with
    | some v => simp [ih, hrs]
    | none =>
      cases hh : r.header with
      | none => simp [ih, hrs]
      | some h' =>
        cases hd : r.data with
        | none => simp [ih, hrs]
        | some d =>
          by_cases hU : pyStrip h' = "UPC"
          · simp [hU, ih, hrs]
          · simp [hU, ih, hrs]

/-- The row loop never changes any field other than `upc`. -/
theorem applyRows_frame (rows : List Row) (b : Book) :
    (applyRows b rows).title = b.title ∧ (applyRows b rows).price = b.price
    ∧ (applyRows b rows).rating = b.rating
    ∧ (applyRows b rows).availability = b.availability
    ∧ (applyRows b rows).category = b.category ∧ (applyRows b rows).url = b.url
    ∧ (applyRows b rows).image_url = b.image_url
    ∧ (applyRows b rows).description = b.description := by
  induction rows generalizing b with
  | nil => exact ⟨rfl, rfl, rfl, rfl, rfl, rfl, rfl, rfl⟩
  | cons r rs ih =>
    unfold applyRows
    cases hh : r.header with
    | none => exact ih b
    | some h' =>
      cases hd : r.data with
      | none => exact ih b
      | some d =>
        by_cases hU : pyStrip h' = "UPC"
        · simpa [hU] using ih { b with upc := some (pyStrip d) }
        · simpa [hU] using ih b

/-- C9 (confirmed).  When no specification-table row passes the UPC test
(both cells present and the header cell's stripped text equal, case
sensitively, to `"UPC"`), `parse_book_details` leaves `upc` exactly as it
was - in particular unset when it was unset - and leaves every summary
field (title, price, rating, availability, category, url, image_url)
unchanged. -/
theorem parse_book_details_no_upc (doc : DetailDoc) (b : Book)
    (h : ∀ rows, doc.infoTable = some rows → ∀ r ∈ rows, rowIsUpc r = false) :
    (parse_book_details doc b).upc = b.upc
    ∧ (parse_book_details doc b).title = b.title
    ∧ (parse_book_details doc b).price = b.price
    ∧ (parse_book_details doc b).rating = b.rating
    ∧ (parse_book_details doc b).availability = b.availability
    ∧ (parse_book_details doc b).category = b.category
    ∧ (parse_book_details doc b).url = b.url
    ∧ (parse_book_details doc b).image_url = b.image_url := by
  unfold parse_book_details
  cases ht : doc.infoTable with
  | none =>
    cases hdsc : doc.descriptionText <;> simp [hdsc]
  | some rows =>
    have hrows : ∀ b', applyRows b' rows = b' :=
      fun b' => applyRows_no_match rows b' (h rows ht)
    cases hdsc : doc.descriptionText <;> simp [hdsc, hrows]

/-- Witness for C9: a detail page whose table has a lowercase `upc` row, a
price row and a headerless row leaves the sample book's `upc` unset and its
summary fields intact (the lowercase row also witnesses case sensitivity). -/
theorem parse_book_details_no_upc_witness :
    (parse_book_details
        ({ descriptionText := some " a description "
           infoTable := some [{ header := some "upc", data := some "123" },
                              { header := some "Price (incl. tax)", data := some "£51.77" },
                              { header := none, data := some "stray" }] } : DetailDoc)
        sampleBook).upc = sampleBook.upc
    ∧ (parse_book_details
        ({ descriptionText := some " a description "
           infoTable := some [{ header := some "upc", data := some "123" },
                              { header := some "Price (incl. tax)", data := some "£51.77" },
                              { header := none, data := some "stray" }] } : DetailDoc)
        sampleBook).title = sampleBook.title := by
  have h := parse_book_details_no_upc
    ({ descriptionText := some " a description "
       infoTable := some [{ header := some "upc", data := some "123" },
                          { header := some "Price (incl. tax)", data := some "£51.77" },
                          { header := none, data := some "stray" }] } : DetailDoc)
    sampleBook
    (by intro rows hr; injection hr with hr; subst hr; decide)
  exact ⟨h.1, h.2.1⟩

/-- C10 (confirmed).  The row loop of `parse_book_details` assigns on every
matching row without stopping, so with several rows whose header strips to
`"UPC"` the final value is the last matching row's stripped value cell;
with none, `upc` is untouched. -/
theorem parse_book_details_last_upc (doc : DetailDoc) (b : Book) (rows : List Row)
    (v : String) (ht : doc.infoTable = some rows) :
    (lastUpcVal rows = some v → (parse_book_details doc b).upc = some v)
    ∧ (lastUpcVal rows = none → (parse_book_details doc b).upc = b.upc) := by
  constructor
  · intro hv
    unfold parse_book_details
    rw [ht]
    cases hdsc : doc.descriptionText <;> simp [applyRows_upc, hv]
  · intro hv
    unfold parse_book_details
    rw [ht]
    cases hdsc : doc.descriptionText <;> simp [applyRows_upc, hv]

/-- Witness for C10: two UPC rows (the second with padded header text);
the final `upc` is the second row's stripped value. -/
theorem parse_book_details_last_upc_witness :
    (parse_book_details
        ({ descriptionText := none
           infoTable := some [{ header := some "UPC", data := some "first-upc" },
                              { header := some " UPC ", data := some " second-upc " }] } : DetailDoc)
        sampleBook).upc = some "second-upc" := by
  have h := parse_book_details_last_upc
    ({ descriptionText := none
       infoTable := some [{ header := some "UPC", data := some "first-upc" },
                          { header := some " UPC ", data := some " second-upc " }] } : DetailDoc)
    sampleBook
    [{ header := some "UPC", data := some "first-upc" },
     { header := some " UPC ", data := some " second-upc " }]
    "second-upc" rfl
  exact h.1 (by decide)

/-! ## Orchestrator: supporting lemmas -/

/-- Unfolding equation for `catLoop` on a successfully fetched page. -/
theorem catLoop_cons_some (d : Book → Option DetailDoc) (cap : Option Nat) (count : Nat)
    (books : List Book) (rest : List (Option (List Book))) :
    catLoop d cap count (some books :: rest) =
      if capReached cap count then ([], 1)
      else if rest.isEmpty || capReached cap (pageBooks d cap count books).2 then
        ((pageBooks d cap count books).1, 1)
      else
        ((pageBooks d cap count books).1 ++ (catLoop d cap (pageBooks d cap count books).2 rest).1,
         (catLoop d cap (pageBooks d cap count books).2 rest).2 + 1) := rfl

/-- Without a cap, the per-page loop enriches every book in order and counts
them all. -/
theorem pageBooks_nocap (d : Book → Option DetailDoc) (books : List Book) (count : Nat) :
    pageBooks d none count books = (books.map (fun x => enrichBook (d x) x), count + books.length) := by
  induction books generalizing count with
  | nil => simp [pageBooks]
  | cons b rest ih =>
    simp only [pageBooks, capReached, Bool.false_eq_true, if_false, ih (count + 1),
      List.map_cons, List.length_cons, Prod.mk.injEq]
    refine ⟨by simp, by omega⟩

/-- With cap `n` and a running count `count ≤ n`, the per-page loop's final
count is `min (count + page size) n`. -/
theorem pageBooks_count_cap (d : Book → Option DetailDoc) (n : Nat) (books : List Book)
    (count : Nat) (hc : count ≤ n) :
    (pageBooks d (some n) count books).2 = min (count + books.length) n := by
  induction books generalizing count with
  | nil => simp [pageBooks]; omega
  | cons b rest ih =>
    by_cases hcap : n ≤ count
    · have : count = n := le_antisymm hc hcap
      subst this
      simp [pageBooks, capReached]
    · have h1 : count + 1 ≤ n := by omega
      simp only [pageBooks, capReached, decide_eq_true_eq]
      rw [if_neg (by omega)]
      simp only [ih (count + 1) h1, List.length_cons]
      omega

/-- The number of books the per-page loop appends is its count increase. -/
theorem pageBooks_len_cap (d : Book → Option DetailDoc) (n : Nat) (books : List Book)
    (count : Nat) (hc : count ≤ n) :
    (pageBooks d (some n) count books).1.length = (pageBooks d (some n) count books).2 - count := by
  induction books generalizing count with
  | nil => simp [pageBooks]
  | cons b rest ih =>
    by_cases hcap : n ≤ count
    · simp [pageBooks, capReached, hcap]
    · have h1 : count + 1 ≤ n := by omega
      simp only [pageBooks, capReached, decide_eq_true_eq]
      rw [if_neg (by omega)]
      simp only [List.length_cons, ih (count + 1) h1]
      have h2 : count + 1 ≤ (pageBooks d (some n) (count + 1) rest).2 := by
        rw [pageBooks_count_cap d n rest (count + 1) h1]; omega
      omega

/-- With cap `n`, the category loop starting at count `count ≤ n` appends at
most `n - count` books. -/
theorem catLoop_len_cap (d : Book → Option DetailDoc) (n : Nat)
    (chain : List (Option (List Book))) (count : Nat) (hc : count ≤ n) :
    (catLoop d (some n) count chain).1.length ≤ n - count := by
  induction chain generalizing count with
  | nil => simp [catLoop]
  | cons page rest ih =>
    cases page with
    | none => simp [catLoop]
    | some books =>
      rw [catLoop_cons_some]
      by_cases hcap : n ≤ count
      · rw [show capReached (some n) count = true by simp [capReached, hcap]]
        simp
      · rw [show capReached (some n) count = false by simp [capReached]; omega]
        simp only [Bool.false_eq_true, if_false]
        have hcount := pageBooks_count_cap d n books count hc
        have hlen := pageBooks_len_cap d n books count hc
        have hle : count ≤ (pageBooks d (some n) count books).2 := by rw [hcount]; omega
        have hm : (pageBooks d (some n) count books).2 ≤ n := by rw [hcount]; omega
        cases hguard : (rest.isEmpty || capReached (some n) (pageBooks d (some n) count books).2) with
        | true =>
          rw [if_pos rfl]
          simp only
          omega
        | false =>
          simp only [Bool.false_eq_true, if_false, List.length_append]
          have hrec := ih (pageBooks d (some n) count books).2 hm
          omega

/-- With cap `n`, once the successfully fetched pages already offer `n`
books, any further chain elements are irrelevant: the loop never reaches
them. -/
theorem catLoop_stops_at_cap (d : Book → Option DetailDoc) (n : Nat)
    (chain : List (List Book)) (rest : List (Option (List Book))) (count : Nat)
    (hc : count ≤ n) (hn : n ≤ count + chainBooks chain) (hne : chain ≠ []) :
    catLoop d (some n) count (chain.map some ++ rest) =
      catLoop d (some n) count (chain.map some) := by
  induction chain generalizing count with
  | nil => exact absurd rfl hne
  | cons page tl ih =>
    rw [List.map_cons, List.cons_append, catLoop_cons_some, catLoop_cons_some]
    by_cases hcap : n ≤ count
    · rw [show capReached (some n) count = true by simp [capReached, hcap]]
      simp
    · rw [show capReached (some n) count = false by simp [capReached]; omega]
      simp only [Bool.false_eq_true, if_false]
      have hcount := pageBooks_count_cap d n page count hc
      by_cases hstop : n ≤ (pageBooks d (some n) count page).2
      · rw [show capReached (some n) (pageBooks d (some n) count page).2 = true by
          simp [capReached, hstop]]
        simp
      · rw [show capReached (some n) (pageBooks d (some n) count page).2 = false by
          simp [capReached]; omega]
        simp only [Bool.or_false]
        have hfull : (pageBooks d (some n) count page).2 = count + page.length := by
          rw [hcount]
          rw [hcount] at hstop
          omega
        cases tl with
        | nil =>
          exfalso
          simp only [chainBooks] at hn
          omega
        | cons q tl' =>
          simp only [List.map_cons, List.cons_append, List.isEmpty_cons,
            Bool.false_eq_true, if_false]
          have hrec := ih ((pageBooks d (some n) count page).2)
            (by rw [hcount]; omega)
            (by simp only [chainBooks] at hn ⊢; omega)
            (by simp)
          simp only [List.map_cons, List.cons_append] at hrec
          rw [hrec]

/-- Without a cap, the category loop walks the whole chain of successful
pages: it fetches every page and appends every page's books, enriched, in
page order. -/
theorem catLoop_nocap (d : Book → Option DetailDoc) (chain : List (List Book)) (count : Nat) :
    catLoop d none count (chain.map some) =
      ((chain.map (fun page => page.map (fun x => enrichBook (d x) x))).flatten, chain.length) := by
  induction chain generalizing count with
  | nil => simp [catLoop]
  | cons page tl ih =>
    rw [List.map_cons, catLoop_cons_some]
    cases tl with
    | nil =>
      simp [capReached, pageBooks_nocap, List.flatten]
    | cons q tl' =>
      have hih := ih (count + page.length)
      rw [List.map_cons] at hih
      simp only [capReached, Bool.false_eq_true, if_false, pageBooks_nocap,
        List.map_cons, List.isEmpty_cons, Bool.or_false]
      rw [hih]
      simp [List.flatten]

/-- C7 (confirmed).  With a configured cap `n`, the per-category crawl
appends at most `n` books, and once the pages fetched so far already supply
`n` books the loop stops fetching further listing pages (the rest of the
chain is never consulted).  With no cap, the crawl walks the entire chain:
every page is fetched until the next-page link is absent, and all books are
collected. -/
theorem scrape_cap_spec (d : Book → Option DetailDoc) (n : Nat)
    (chain : List (Option (List Book))) (chain1 : List (List Book))
    (rest : List (Option (List Book))) (c : List (List Book))
    (hn : n ≤ chainBooks chain1) (hne : chain1 ≠ []) :
    (catLoop d (some n) 0 chain).1.length ≤ n
    ∧ catLoop d (some n) 0 (chain1.map some ++ rest) = catLoop d (some n) 0 (chain1.map some)
    ∧ catLoop d none 0 (c.map some) =
        ((c.map (fun page => page.map (fun x => enrichBook (d x) x))).flatten, c.length) := by
  refine ⟨?_, ?_, ?_⟩
  · simpa using catLoop_len_cap d n chain 0 (Nat.zero_le n)
  · exact catLoop_stops_at_cap d n chain1 rest 0 (Nat.zero_le n) (by simpa using hn) hne
  · exact catLoop_nocap d c 0

/-- Witness for C7: with cap 2 and a first page of three books the loop
keeps at most 2; with the first two pages supplying 2 books, a trailing
page is irrelevant; with no cap a two-page chain is walked in full. -/
theorem scrape_cap_spec_witness :
    (catLoop (fun _ => none) (some 2) 0 [some [sampleBook, sampleBook, sampleBook]]).1.length ≤ 2
    ∧ catLoop (fun _ => none) (some 2) 0
        ([[sampleBook], [sampleBook]].map some ++ [some [sampleBook]]) =
      catLoop (fun _ => none) (some 2) 0 ([[sampleBook], [sampleBook]].map some)
    ∧ catLoop (fun _ => none) none 0 ([[sampleBook], [sampleBook]].map some) =
        (([[sampleBook], [sampleBook]].map
            (fun page => page.map (fun x => enrichBook ((fun _ => none) x) x))).flatten, 2) := by
  have h := scrape_cap_spec (fun _ => none) 2 [some [sampleBook, sampleBook, sampleBook]]
    [[sampleBook], [sampleBook]] [some [sampleBook]] [[sampleBook], [sampleBook]]
    (by simp [chainBooks]) (by simp)
  exact ⟨h.1, h.2.1, h.2.2⟩

/-- C8 (confirmed).  A failed detail fetch (oracle `none`) leaves its book
exactly as the summary produced it - every summary field intact,
`upc`/`description` still unset - the book is still appended at its
position, every other book of the page is processed independently, every
page of the chain is still walked, and every category still yields a
result list. -/
theorem detail_failure_resilient (d : Book → Option DetailDoc) (books : List Book)
    (b : Book) (chain : List (List Book))
    (chains : List (List (Option (List Book)))) (hb : d b = none) :
    (pageBooks d none 0 books).1 = books.map (fun x => enrichBook (d x) x)
    ∧ enrichBook (d b) b = b
    ∧ (catLoop d none 0 (chain.map some)).1 =
        (chain.map (fun page => page.map (fun x => enrichBook (d x) x))).flatten
    ∧ (runCategories d none chains).length = chains.length := by
  refine ⟨?_, ?_, ?_, ?_⟩
  · rw [pageBooks_nocap]
  · rw [hb]; rfl
  · rw [catLoop_nocap]
  · simp [runCategories]

/-- Witness for C8: a page of two sample books whose detail fetches all
fail is appended unchanged, and the failing book keeps all its fields. -/
theorem detail_failure_resilient_witness :
    (pageBooks (fun _ => none) none 0 [sampleBook, sampleBook]).1 = [sampleBook, sampleBook]
    ∧ enrichBook ((fun _ => none : Book → Option DetailDoc) sampleBook) sampleBook = sampleBook := by
  have h := detail_failure_resilient (fun _ => none) [sampleBook, sampleBook] sampleBook
    [] [] rfl
  exact ⟨by rw [h.1]; rfl, h.2.1⟩

/-! ## Detail-fetch concurrency (claim C4) -/

/-- Scanning the sequential trace from an idle state yields a running
maximum of at most `max m 1`. -/
theorem inFlightAux_seqTrace (k i m : Nat) :
    inFlightAux (seqTrace i k) 0 m = if k = 0 then m else max m 1 := by
  induction k generalizing i m with
  | zero => simp [seqTrace, inFlightAux]
  | succ k' ih =>
    simp only [seqTrace, inFlightAux, Nat.zero_add, Nat.add_sub_cancel]
    rw [ih (i + 1) (max m 1)]
    by_cases hk : k' = 0 <;> simp [hk, Nat.max_assoc]

/-- The position of a dispatch event in the sequential trace. -/
theorem evPos_dispatch (k i j : Nat) (h1 : i ≤ j) (h2 : j < i + k) :
    evPos (seqTrace i k) (FetchEv.dispatch j) = 2 * (j - i) := by
  induction k generalizing i with
  | zero => omega
  | succ k' ih =>
    simp only [seqTrace, evPos]
    by_cases hij : i = j
    · subst hij
      simp
    · rw [if_neg (by simp [FetchEv.dispatch.injEq]; omega),
        if_neg (by simp)]
      rw [ih (i + 1) (by omega) (by omega)]
      omega

/-- The position of a completion event in the sequential trace. -/
theorem evPos_complete (k i j : Nat) (h1 : i ≤ j) (h2 : j < i + k) :
    evPos (seqTrace i k) (FetchEv.complete j) = 2 * (j - i) + 1 := by
  induction k generalizing i with
  | zero => omega
  | succ k' ih =>
    simp only [seqTrace, evPos]
    by_cases hij : i = j
    · subst hij
      rw [if_neg (by simp), if_pos rfl]
      omega
    · rw [if_neg (by simp), if_neg (by simp [FetchEv.complete.injEq]; omega)]
      rw [ih (i + 1) (by omega) (by omega)]
      omega

/-- C4 amended (the claim's width-5 worker pool does not exist).  The
per-page detail fetches of `scrape_all_books` are strictly sequential: at
most one fetch is ever in flight, and for any two books `i < j` of the
page, the completion of fetch `i` precedes the dispatch of fetch `j`.  All
fetches of the page thus complete before the orchestrator moves on. -/
theorem detail_fetch_sequential (books : List Book) (i j : Nat)
    (hij : i < j) (hj : j < books.length) :
    maxInFlight (detailFetchTrace books) ≤ 1
    ∧ evPos (detailFetchTrace books) (FetchEv.complete i) <
        evPos (detailFetchTrace books) (FetchEv.dispatch j) := by
  constructor
  · unfold maxInFlight detailFetchTrace
    rw [inFlightAux_seqTrace]
    by_cases h : books.length = 0 <;> simp [h]
  · unfold detailFetchTrace
    rw [evPos_complete books.length 0 i (by omega) (by omega),
      evPos_dispatch books.length 0 j (by omega) (by omega)]
    omega

/-- Witness for the amended C4 at a three-book page. -/
theorem detail_fetch_sequential_witness :
    maxInFlight (detailFetchTrace [sampleBook, sampleBook, sampleBook]) ≤ 1
    ∧ evPos (detailFetchTrace [sampleBook, sampleBook, sampleBook]) (FetchEv.complete 0) <
        evPos (detailFetchTrace [sampleBook, sampleBook, sampleBook]) (FetchEv.dispatch 2) := by
  exact detail_fetch_sequential [sampleBook, sampleBook, sampleBook] 0 2
    (by omega) (by simp)

/-- C4 counterexample.  The claim asserts a fixed-size worker pool of
default width 5 running each page's batch of detail fetches concurrently;
on a batch of five books such a pool admits five simultaneously in-flight
fetches.  In the code the fetches are issued by a plain sequential loop:
the trace of a five-book batch never has more than one fetch in flight. -/
theorem detail_pool_counterexample :
    maxInFlight (detailFetchTrace
      [sampleBook, sampleBook, sampleBook, sampleBook, sampleBook]) = 1
    ∧ (1 : Nat) ≠ 5 := by
  constructor
  · rfl
  · decide

/-! ## Rate limiter (claim C1) -/

/-- After `_respect_rate_limit`, the clock (= the dispatch time of the next
request) is at least `last_request_time + rate_limit`. -/
theorem respectRateLimit_ge (rl now last : ℚ) :
    last + rl ≤ (respectRateLimit rl now last).1 := by
  unfold respectRateLimit
  by_cases h : now - last < rl
  · rw [if_pos h]
    simp only
    linarith
  · rw [if_neg h]
    simp only
    linarith [not_lt.mp h]

/-- `_respect_rate_limit` stores exactly the post-sleep clock into
`last_request_time`. -/
theorem respectRateLimit_snd (rl now last : ℚ) :
    (respectRateLimit rl now last).2 = (respectRateLimit rl now last).1 := by
  unfold respectRateLimit
  by_cases h : now - last < rl
  · rw [if_pos h]
  · rw [if_neg h]

/-- C1 amended (the claim's completion-relative throttle is not what the
code implements).  `last_request_time` is recorded immediately *before*
each request is dispatched, so consecutive *dispatch* times along any run
of back-to-back `get` calls are at least `rate_limit` apart - regardless
of how long each request takes - and the calls are issued sequentially. -/
theorem rate_limit_dispatch_gap (rl now last : ℚ) (ds : List ℚ) (i : Nat)
    (p q : ℚ × ℚ) (hp : (runGets rl now last ds).get? i = some p)
    (hq : (runGets rl now last ds).get? (i + 1) = some q) :
    p.1 + rl ≤ q.1 := by
  induction ds generalizing now last i with
  | nil => simp [runGets] at hp
  | cons d ds' ih =>
    cases i with
    | zero =>
      simp only [runGets, List.get?_cons_zero, Option.some.injEq] at hp
      simp only [runGets, List.get?_cons_succ] at hq
      cases ds' with
      | nil => simp [runGets] at hq
      | cons d' ds'' =>
        simp only [runGets, List.get?_cons_zero, Option.some.injEq] at hq
        rw [← hp, ← hq]
        simp only
        rw [respectRateLimit_snd]
        exact respectRateLimit_ge rl ((respectRateLimit rl now last).1 + d)
          ((respectRateLimit rl now last).1)
    | succ i' =>
      simp only [runGets, List.get?_cons_succ] at hp hq
      exact ih ((respectRateLimit rl now last).1 + d) (respectRateLimit rl now last).2 i' hp hq

/-- Witness for the amended C1: with `rate_limit = 1`, two unit-length
requests starting at clock 0 dispatch at times 1 and 2, one rate-limit
interval apart. -/
theorem rate_limit_dispatch_gap_witness :
    (runGets 1 0 0 [1, 1]).get? 0 = some (1, 2)
    ∧ (runGets 1 0 0 [1, 1]).get? 1 = some (2, 3)
    ∧ ((1 : ℚ), (2 : ℚ)).1 + 1 ≤ ((2 : ℚ), (3 : ℚ)).1 := by
  have h0 : (runGets 1 0 0 [1, 1]).get? 0 = some (1, 2) := by
    norm_num [runGets, respectRateLimit]
  have h1 : (runGets 1 0 0 [1, 1]).get? 1 = some (2, 3) := by
    norm_num [runGets, respectRateLimit]
  exact ⟨h0, h1, rate_limit_dispatch_gap 1 0 0 [1, 1] 0 (1, 2) (2, 3) h0 h1⟩

/-- C1 counterexample.  The claim requires every dispatch to wait
`rate_limit` seconds after the previous request *completed*.  With
`rate_limit = 2`, a first request dispatched at clock 10 that takes 5
seconds completes at 15; the code dispatches the next request at 15 - the
timer ran from the previous *dispatch* - not at 17 as the claim demands. -/
theorem rate_limit_counterexample :
    runGets 2 10 0 [5, 0] = [(10, 15), (15, 15)]
    ∧ ¬ ((15 : ℚ) + 2 ≤ 15) := by
  constructor
  · norm_num [runGets, respectRateLimit]
  · norm_num

/-! ## Collector failure handling (claim C3) -/

/-- C3 amended (the claim's "non-2xx status" is wider than what the code
rejects).  Every `RequestException` - connection errors, timeouts, and the
`HTTPError` that `raise_for_status` raises exactly for statuses 400-599 -
is normalized to the single failure outcome `none`, with a log line
carrying the attempted (fully resolved) URL and the cause, and no body is
returned.  Any response with a status outside 400-599 is returned in full
as success. -/
theorem collector_failure_normalized (base url m : String) (s1 s2 : Nat) (b1 b2 : String) :
    collectorGet base url (.exc m) =
      (none, ["Error fetching " ++ resolveFullUrl base url ++ ": " ++ m])
    ∧ (400 ≤ s1 → s1 < 600 → collectorGet base url (.resp s1 b1) =
        (none, ["Error fetching " ++ resolveFullUrl base url ++ ": "
                ++ statusErrorMsg s1 (resolveFullUrl base url)]))
    ∧ (s2 < 400 ∨ 600 ≤ s2 → collectorGet base url (.resp s2 b2) = (some b2, [])) := by
  refine ⟨rfl, ?_, ?_⟩
  · intro h4 h6
    simp only [collectorGet]
    rw [if_pos ⟨h4, h6⟩]
  · intro h
    simp only [collectorGet]
    rw [if_neg (by omega)]

/-- Witness for the amended C3: a raised exception, a 404, and a 200. -/
theorem collector_failure_normalized_witness :
    collectorGet "http://books.toscrape.com" "/" (.exc "timeout") =
      (none, ["Error fetching " ++ resolveFullUrl "http://books.toscrape.com" "/"
              ++ ": " ++ "timeout"])
    ∧ collectorGet "http://books.toscrape.com" "/" (.resp 404 "nf") =
      (none, ["Error fetching " ++ resolveFullUrl "http://books.toscrape.com" "/" ++ ": "
              ++ statusErrorMsg 404 (resolveFullUrl "http://books.toscrape.com" "/")])
    ∧ collectorGet "http://books.toscrape.com" "/" (.resp 200 "body") = (some "body", []) := by
  have h := collector_failure_normalized "http://books.toscrape.com" "/" "timeout"
    404 200 "nf" "body"
  exact ⟨h.1, h.2.1 (by omega) (by omega), h.2.2 (Or.inl (by omega))⟩

/-- C3 counterexample.  A surfaced 304 response has a non-2xx status, yet
`raise_for_status` does not raise for it (it raises only for 400-599), so
the collector returns its body as success instead of the single Failure
outcome the claim requires for every non-2xx status. -/
theorem collector_non2xx_counterexample :
    (collectorGet "http://books.toscrape.com" "/" (.resp 304 "cached")).1 = some "cached"
    ∧ ¬ (200 ≤ 304 ∧ 304 < 300) := by
  constructor
  · rfl
  · omega

/-! ## Detail and image URL resolution (claim C2) -/

/-- The character data of an appended string. -/
theorem str_data_append (a b : String) : (a ++ b).data = a.data ++ b.data := rfl

/-- C2 amended (the claim's fixed-depth prefix strip is not what the code
does).  `parse_books_list` builds a book's detail URL, for every nonempty
href whether relative or absolute, by removing *all* leading `.` and `/`
characters (Python's character-set `lstrip`) and then prefixing
`base + "/catalogue/"`; an empty href yields an empty URL.  The image URL
uses the distinct plain relative-to-base rule `resolve_image_url`.  On the
site's actual convention - hrefs beginning with the three-level upward
prefix `"../../../"` followed by a path not starting with `.` or `/` - the
code's rule and the spec's fixed-depth strip agree. -/
theorem book_url_resolution (base cat : String) (e : PodElement) (t : String) (c : Char)
    (hhead : t.data.head? = some c) (hc1 : c ≠ '.') (hc2 : c ≠ '/') :
    (podHref e ≠ "" → (parse_book_element base cat e).url
        = base ++ "/catalogue/" ++ pyLstrip (podHref e) ['.', '/'])
    ∧ (podHref e = "" → (parse_book_element base cat e).url = "")
    ∧ (parse_book_element base cat e).image_url = some (resolve_image_url base (podImgSrc e))
    ∧ resolve_book_url base ("../../../" ++ t) = specResolveDetailUrl base ("../../../" ++ t) := by
  have hd : ("../../../" ++ t).data = "../../../".data ++ t.data := str_data_append _ _
  have hne : ("../../../" ++ t) ≠ "" := by
    intro h
    have h' := congrArg String.data h
    rw [hd] at h'
    simp at h'
  refine ⟨?_, ?_, rfl, ?_⟩
  · intro h
    show resolve_book_url base (podHref e) = _
    unfold resolve_book_url
    rw [if_neg h]
  · intro h
    show resolve_book_url base (podHref e) = _
    unfold resolve_book_url
    rw [if_pos h]
  · have hcont : ∀ x, t.data.head? = some x → ((['.', '/'] : List Char).contains x) = false := by
      intro x hx
      rw [hhead] at hx
      injection hx with hx
      subst hx
      simp only [List.contains_cons, Bool.or_eq_false_iff]
      constructor
      · simpa using fun h => hc1 h
      · simpa using fun h => hc2 h
    have hdrop : ("../../../".data ++ t.data).dropWhile
        (fun ch => (['.', '/'] : List Char).contains ch) = t.data :=
      (takeWhile_append_block (fun ch => (['.', '/'] : List Char).contains ch)
        ("../../../".data) t.data (by decide) hcont).2
    have hlhs : resolve_book_url base ("../../../" ++ t)
        = base ++ "/catalogue/" ++ t := by
      unfold resolve_book_url
      rw [if_neg hne]
      unfold pyLstrip
      rw [hd, hdrop]
    have htake : ("../../../" ++ t).data.take ("../../../".data.length) = "../../../".data := by
      rw [hd]
      simp [take_append_len ("../../../".data) t.data 0]
    have hdrop2 : ("../../../" ++ t).data.drop ("../../../".data.length) = t.data := by
      rw [hd]
      simp [drop_append_len ("../../../".data) t.data 0]
    have hrhs : specResolveDetailUrl base ("../../../" ++ t)
        = base ++ "/catalogue/" ++ t := by
      unfold specResolveDetailUrl
      rw [if_neg hne, if_pos htake, hdrop2]
    rw [hlhs, hrhs]

/-- Witness for the amended C2 at the site's actual href shape. -/
theorem book_url_resolution_witness :
    (parse_book_element "http://books.toscrape.com" "Travel"
        ({ anchor := some { titleAttr := some "Its Only the Himalayas"
                            hrefAttr := some "../../../its-only-the-himalayas_981/index.html" }
           img := some (some "../media/cache/img.jpg")
           starClasses := some ["star-rating", "Two"]
           priceText := some "£45.17"
           availabilityText := some "In stock" } : PodElement)).url
      = "http://books.toscrape.com" ++ "/catalogue/" ++
          pyLstrip "../../../its-only-the-himalayas_981/index.html" ['.', '/']
    ∧ resolve_book_url "http://books.toscrape.com"
        ("../../../" ++ "its-only-the-himalayas_981/index.html")
      = specResolveDetailUrl "http://books.toscrape.com"
        ("../../../" ++ "its-only-the-himalayas_981/index.html") := by
  have h := book_url_resolution "http://books.toscrape.com" "Travel"
    ({ anchor := some { titleAttr := some "Its Only the Himalayas"
                        hrefAttr := some "../../../its-only-the-himalayas_981/index.html" }
       img := some (some "../media/cache/img.jpg")
       starClasses := some ["star-rating", "Two"]
       priceText := some "£45.17"
       availabilityText := some "In stock" } : PodElement)
    "its-only-the-himalayas_981/index.html" 'i' rfl (by decide) (by decide)
  exact ⟨h.1 (by decide), h.2.2.2⟩

/-- C2 counterexample.  For the relative href `"./a.html"` - which carries
no upward path prefix - the claim's rule would keep it intact and produce
`".../catalogue/./a.html"`, but the code's character-set `lstrip` deletes
the leading `.` and `/` characters and produces `".../catalogue/a.html"`:
the two resolution rules differ. -/
theorem book_url_counterexample :
    resolve_book_url "http://books.toscrape.com" "./a.html"
      = "http://books.toscrape.com/catalogue/a.html"
    ∧ specResolveDetailUrl "http://books.toscrape.com" "./a.html"
      = "http://books.toscrape.com/catalogue/./a.html"
    ∧ ("http://books.toscrape.com/catalogue/a.html" : String)
      ≠ "http://books.toscrape.com/catalogue/./a.html" := by
  refine ⟨?_, ?_, ?_⟩ <;> decide

/-! ## Price extraction (claim C6): the matcher meets its declarative form -/

/-- A nonempty list is not `isEmpty`. -/
theorem isEmpty_false_of_ne {α : Type} (l : List α) (h : l ≠ []) : l.isEmpty = false := by
  cases l with
  | nil => exact absurd rfl h
  | cons a l' => rfl

/-- The anchored matcher is sound for the declarative match predicate. -/
theorem matchPriceAt_sound (cs ds fs : List Char)
    (h : matchPriceAt cs = some (ds, fs)) : MatchFrom cs ds fs := by
  cases cs with
  | nil => simp [matchPriceAt] at h
  | cons c rest =>
    simp only [matchPriceAt] at h
    by_cases hc : c = '£'
    case neg => rw [if_neg hc] at h; exact absurd h (by simp)
    rw [if_pos hc] at h
    subst hc
    by_cases hds : (rest.takeWhile Char.isDigit).isEmpty = true
    · rw [if_pos hds] at h; exact absurd h (by simp)
    rw [if_neg hds] at h
    by_cases hdot : (rest.dropWhile Char.isDigit).head? = some '.'
    case neg => rw [if_neg hdot] at h; exact absurd h (by simp)
    rw [if_pos hdot] at h
    by_cases hfs : (((rest.dropWhile Char.isDigit).tail).takeWhile Char.isDigit).isEmpty = true
    · rw [if_pos hfs] at h; exact absurd h (by simp)
    rw [if_neg hfs] at h
    simp only [Option.some.injEq, Prod.mk.injEq] at h
    obtain ⟨h1, h2⟩ := h
    obtain ⟨xs, hr2⟩ : ∃ xs, rest.dropWhile Char.isDigit = '.' :: xs := by
      cases hr : rest.dropWhile Char.isDigit with
      | nil => rw [hr] at hdot; simp at hdot
      | cons x xs =>
        rw [hr] at hdot
        simp only [List.head?_cons, Option.some.injEq] at hdot
        exact ⟨xs, by rw [hdot]⟩
    have hxs : xs.takeWhile Char.isDigit = fs := by
      rw [hr2] at h2
      simpa using h2
    have hdsne : ds ≠ [] := by
      intro hn
      rw [h1, hn] at hds
      exact hds rfl
    have hfsne : fs ≠ [] := by
      intro hn
      rw [hr2] at hfs
      simp only [List.tail_cons] at hfs
      rw [hxs, hn] at hfs
      exact hfs rfl
    have hdig1 : ∀ x ∈ ds, x.isDigit = true := by
      intro x hx
      rw [← h1] at hx
      exact mem_takeWhile_sat Char.isDigit rest x hx
    have hdig2 : ∀ x ∈ fs, x.isDigit = true := by
      intro x hx
      rw [← hxs] at hx
      exact mem_takeWhile_sat Char.isDigit xs x hx
    have hxs2 : xs = fs ++ xs.dropWhile Char.isDigit := by
      conv_lhs => rw [← List.takeWhile_append_dropWhile (p := Char.isDigit) (l := xs)]
      rw [hxs]
    obtain ⟨suf, hsufdef, hxs3⟩ : ∃ suf, suf = xs.dropWhile Char.isDigit ∧ xs = fs ++ suf :=
      ⟨xs.dropWhile Char.isDigit, rfl, hxs2⟩
    have hrest : rest = ds ++ '.' :: (fs ++ suf) := by
      conv_lhs => rw [← List.takeWhile_append_dropWhile (p := Char.isDigit) (l := rest)]
      rw [h1, hr2, hxs3]
    have hassoc : ds ++ '.' :: (fs ++ suf) = (ds ++ '.' :: fs) ++ suf := by simp
    have hlen : ds.length + fs.length + 2 = (ds ++ '.' :: fs).length + 1 := by
      simp only [List.length_append, List.length_cons]
      omega
    refine ⟨hdsne, hfsne, hdig1, hdig2, ?_, ?_⟩
    · rw [hrest, hlen, List.take_succ_cons, hassoc]
      have := take_append_len (ds ++ '.' :: fs) suf 0
      simpa using this
    · intro x hx
      rw [hrest, hlen, List.drop_succ_cons, hassoc] at hx
      have hdropc : ((ds ++ '.' :: fs) ++ suf).drop ((ds ++ '.' :: fs).length) = suf := by
        have h0 := drop_append_len (ds ++ '.' :: fs) suf 0
        simp only [Nat.add_zero, List.drop_zero] at h0
        exact h0
      rw [hdropc] at hx
      have hhead := (mem_take_one suf x).mp hx
      rw [hsufdef] at hhead
      exact head_dropWhile_not Char.isDigit xs x hhead

/-- The anchored matcher is complete for the declarative match predicate. -/
theorem matchPriceAt_complete (cs ds fs : List Char) (h : MatchFrom cs ds fs) :
    matchPriceAt cs = some (ds, fs) := by
  obtain ⟨hds, hfs, hdig1, hdig2, htake, hdropH⟩ := h
  have hcs : cs = ('£' :: (ds ++ '.' :: fs)) ++ cs.drop (ds.length + fs.length + 2) := by
    rw [← htake]
    exact (List.take_append_drop _ cs).symm
  obtain ⟨suf, hsuf, hsufhead⟩ :
      ∃ suf, cs = ('£' :: (ds ++ '.' :: fs)) ++ suf ∧ ∀ x ∈ suf.take 1, x.isDigit = false :=
    ⟨cs.drop (ds.length + fs.length + 2), hcs, hdropH⟩
  rw [hsuf]
  have hstep : ('£' :: (ds ++ '.' :: fs)) ++ suf = '£' :: (ds ++ '.' :: (fs ++ suf)) := by simp
  rw [hstep]
  have hblock1 := takeWhile_append_block Char.isDigit ds ('.' :: (fs ++ suf)) hdig1
    (by intro x hx
        simp only [List.head?_cons, Option.some.injEq] at hx
        subst hx
        decide)
  have hblock2 := takeWhile_append_block Char.isDigit fs suf hdig2
    (by intro x hx
        exact hsufhead x ((mem_take_one suf x).mpr hx))
  simp only [matchPriceAt, if_pos rfl, hblock1.1, hblock1.2]
  rw [isEmpty_false_of_ne ds hds]
  simp only [Bool.false_eq_true, if_false, List.head?_cons, List.tail_cons, if_pos rfl,
    hblock2.1]
  rw [isEmpty_false_of_ne fs hfs]
  simp

/-- `re.search` returns a first (leftmost) declarative match. -/
theorem searchPrice_sound (cs ds fs : List Char) (h : searchPrice cs = some (ds, fs)) :
    ∃ i, FirstMatch cs i ds fs := by
  induction cs with
  | nil => simp [searchPrice] at h
  | cons c cs' ih =>
    simp only [searchPrice] at h
    cases hm : matchPriceAt (c :: cs') with
    | some r =>
      rw [hm] at h
      simp only [Option.some.injEq] at h
      subst h
      refine ⟨0, by simpa using matchPriceAt_sound _ _ _ hm, ?_⟩
      intro j hj
      omega
    | none =>
      rw [hm] at h
      obtain ⟨i, h1, h2⟩ := ih h
      refine ⟨i + 1, by simpa using h1, ?_⟩
      intro j hj ds' fs'
      cases j with
      | zero =>
        intro hmf
        have hcontra := matchPriceAt_complete _ _ _ (by simpa using hmf)
        rw [hm] at hcontra
        exact absurd hcontra (by simp)
      | succ j' =>
        intro hmf
        exact h2 j' (by omega) ds' fs' (by simpa using hmf)

/-- `re.search` finds any first (leftmost) declarative match. -/
theorem searchPrice_complete (cs : List Char) (i : Nat) (ds fs : List Char)
    (h1 : MatchFrom (cs.drop i) ds fs)
    (h2 : ∀ j, j < i → ∀ ds' fs', ¬ MatchFrom (cs.drop j) ds' fs') :
    searchPrice cs = some (ds, fs) := by
  induction cs generalizing i with
  | nil =>
    obtain ⟨_, _, _, _, ht, _⟩ := h1
    simp at ht
  | cons c cs' ih =>
    cases i with
    | zero =>
      simp only [List.drop_zero] at h1
      simp only [searchPrice, matchPriceAt_complete _ _ _ h1]
    | succ i' =>
      have hnone : matchPriceAt (c :: cs') = none := by
        cases hm : matchPriceAt (c :: cs') with
        | none => rfl
        | some r =>
          exfalso
          have hs := matchPriceAt_sound (c :: cs') r.1 r.2 (by simpa using hm)
          exact h2 0 (by omega) r.1 r.2 (by simpa using hs)
      simp only [searchPrice, hnone]
      exact ih i' (by simpa using h1)
        (fun j hj ds' fs' hmf => h2 (j + 1) (by omega) ds' fs' (by simpa using hmf))

/-- When no position of the text admits a declarative match, `re.search`
returns nothing. -/
theorem searchPrice_no_match (cs : List Char)
    (h : ∀ i ds fs, ¬ MatchFrom (cs.drop i) ds fs) : searchPrice cs = none := by
  cases hs : searchPrice cs with
  | none => rfl
  | some r =>
    exfalso
    obtain ⟨i, h1, _⟩ := searchPrice_sound cs r.1 r.2 (by simpa using hs)
    exact h i r.1 r.2 h1

/-- A text containing no `£` character admits no match at any position. -/
theorem no_match_of_no_pound (cs : List Char) (h : '£' ∉ cs) (j : Nat)
    (ds fs : List Char) : ¬ MatchFrom (cs.drop j) ds fs := by
  intro hm
  obtain ⟨_, _, _, _, ht, _⟩ := hm
  have h1 : '£' ∈ ((cs.drop j).take (ds.length + fs.length + 2)) := by
    rw [ht]
    simp
  exact h (List.mem_of_mem_drop (List.mem_of_mem_take h1))

/-- C6 (confirmed).  `_extract_price` returns the value of the first
(leftmost, greedy) `£(\d+\.\d+)` match in the stripped price text; a
missing price element, and a text with no such match at any position, give
0.0; the function is total, never a parse failure. -/
theorem extract_price_spec (pt : Option String) (t : String) (i : Nat) (ds fs : List Char) :
    (pt = none → extract_price pt = 0)
    ∧ (pt = some t → (∀ j ds' fs', ¬ MatchFrom ((pyStrip t).data.drop j) ds' fs') →
        extract_price pt = 0)
    ∧ (pt = some t → FirstMatch (pyStrip t).data i ds fs →
        extract_price pt = priceOfMatch ds fs) := by
  refine ⟨?_, ?_, ?_⟩
  · intro h
    rw [h]
    rfl
  · intro h hno
    subst h
    simp only [extract_price]
    rw [searchPrice_no_match _ hno]
  · intro h hfm
    subst h
    simp only [extract_price]
    rw [searchPrice_complete _ i ds fs hfm.1 hfm.2]

/-- Witness for C6: a missing element gives 0, a pound-free availability
text gives 0, and `"£51.77"` gives 51.77. -/
theorem extract_price_spec_witness :
    extract_price none = 0
    ∧ extract_price (some "In stock (22 available)") = 0
    ∧ extract_price (some "£51.77") = 5177 / 100 := by
  refine ⟨(extract_price_spec none "" 0 [] []).1 rfl, ?_, ?_⟩
  · exact (extract_price_spec (some "In stock (22 available)") "In stock (22 available)"
      0 [] []).2.1 rfl
      (fun j ds' fs' =>
        no_match_of_no_pound (pyStrip "In stock (22 available)").data (by decide) j ds' fs')
  · have hfm : FirstMatch (pyStrip "£51.77").data 0 ['5', '1'] ['7', '7'] := by
      refine ⟨by decide, ?_⟩
      intro j hj
      omega
    have h := (extract_price_spec (some "£51.77") "£51.77" 0 ['5', '1'] ['7', '7']).2.2
      rfl hfm
    rw [h]
    have h1 : digitsToNat ['5', '1'] = 51 := by decide
    have h2 : digitsToNat ['7', '7'] = 77 := by decide
    simp only [priceOfMatch, h1, h2, List.length_cons, List.length_nil]
    norm_num

end BookScraper
